import Mathlib

/-!
Verification of the `rinlox` scanner (`src/lexer.rs`): a shallow embedding
of the `Scanner` state machine and proofs about its tokenization behaviour.

The Rust scanner stores the source as a `String` and a cursor `current`.
Crucially, the source uses `current` both as a character index (in `peek`,
via `chars().nth(current)`) and as a byte index (in `is_at_end`, which
compares against `source.len()`, and in the slice expressions
`&source[start..current]`).  The embedding keeps the source as a `List Char`
and models the byte-indexed operations explicitly, so that the behaviour on
multi-byte (non-ASCII) characters is captured faithfully.  Rust panics
(`expect`, out-of-boundary slicing) are modelled as a `crash` outcome, and
every loop takes explicit fuel, with `spin` marking fuel exhaustion.
-/

namespace Rinlox

/-- Outcome of running a piece of the scanner: `ok` is a normal return,
`crash` is a Rust panic (a failed `expect` or a byte slice not on character
boundaries), and `spin` means the fuel ran out before the loop finished. -/
inductive Out (α : Type) where
  | ok : α → Out α
  | crash : Out α
  | spin : Out α
  deriving DecidableEq, Repr

/-- Token kinds, mirroring `enum TokenType` in `src/lexer.rs`.  The string
literal payload is the decoded body; the number literal payload is the exact
decimal value of the parsed span (see `parseF64`). -/
inductive TokenType where
  | LeftParen | RightParen | LeftBrace | RightBrace
  | Comma | Dot | Minus | Plus | SemiColon | Slash | Star
  | Bang | BangEqual | Equal | EqualEqual
  | Greater | GreaterEqual | Less | LessEqual
  | Identifier
  | StringLit : String → TokenType
  | NumberLit : ℚ → TokenType
  | And | Class | Else | False | Fun | For | If | Nil | Or
  | Print | Return | Super | This | True | Var | While
  | Eof
  deriving DecidableEq, Repr

/-- The static keyword table `KEYWORDS_PAIRS` of `src/lexer.rs`. -/
def KEYWORDS_PAIRS : List (String × TokenType) :=
  [("and", .And), ("class", .Class), ("else", .Else), ("false", .False),
   ("for", .For), ("fun", .Fun), ("if", .If), ("nil", .Nil), ("or", .Or),
   ("print", .Print), ("return", .Return), ("super", .Super), ("this", .This),
   ("true", .True), ("var", .Var), ("while", .While)]

/-- A scanned token: kind, lexeme and the line recorded at emission. -/
structure Token where
  typ : TokenType
  lexeme : String
  line : Nat
  deriving DecidableEq, Repr

/-- Scanner state (`struct Scanner`).  Diagnostics sent to the `Lox` error
sink (`Lox::error(line, msg)`) are accumulated as `(line, message)` pairs. -/
structure Scanner where
  source : List Char
  tokens : List Token
  start : Nat
  current : Nat
  line : Nat
  diags : List (Nat × String)
  deriving DecidableEq, Repr

/-- Model of `is_digit` (`c.is_digit(10)`). -/
def is_digit (c : Char) : Bool := c.isDigit

/-- Model of `is_alpha` (`c.is_ascii_alphabetic() || c == '_'`). -/
def is_alpha (c : Char) : Bool := c.isAlpha || c = '_'

/-- Model of `is_alphanumeric`. -/
def is_alphanumeric (c : Char) : Bool := is_alpha c || is_digit c

/-- Byte length of the UTF-8 encoding of the characters, as Rust's
`String::len` counts it. -/
def utf8Len (s : List Char) : Nat := (s.map Char.utf8Size).sum

/-- Drop the first `n` bytes of a UTF-8 text given as characters; `none`
when `n` does not land on a character boundary or past the end (where Rust
slicing panics). -/
def byteDrop : List Char → Nat → Option (List Char)
  | s, 0 => some s
  | [], _ + 1 => none
  | c :: cs, n + 1 =>
    if c.utf8Size ≤ n + 1 then byteDrop cs (n + 1 - c.utf8Size) else none

/-- Take the first `n` bytes of a UTF-8 text given as characters; `none`
when `n` does not land on a character boundary or past the end. -/
def byteTake : List Char → Nat → Option (List Char)
  | _, 0 => some []
  | [], _ + 1 => none
  | c :: cs, n + 1 =>
    if c.utf8Size ≤ n + 1 then (byteTake cs (n + 1 - c.utf8Size)).map (c :: ·)
    else none

/-- Model of Rust's byte slicing `&source[a..b]`: `none` is the panic on
bounds that are not character boundaries or are out of range. -/
def sliceBytes (s : List Char) (a b : Nat) : Option (List Char) :=
  if a ≤ b then (byteDrop s a).bind (fun t => byteTake t (b - a)) else none

/-- Value of a run of decimal digits. -/
def digitsVal (l : List Char) : Nat := l.foldl (fun a c => a * 10 + (c.toNat - 48)) 0

/-- Model of `str::parse::<f64>()` restricted to the number grammar the
scanner produces, namely `digit+ ('.' digit+)?`, returning the exact decimal
value; any other shape fails as the Rust parse fails on a non-numeric
slice.  (Used only on the spans `Scanner::number` extracts.) -/
def parseF64 (l : List Char) : Option ℚ :=
  let intPart := l.takeWhile is_digit
  let rest := l.dropWhile is_digit
  if intPart = [] then none
  else match rest with
    | [] => some (digitsVal intPart)
    | '.' :: frac =>
      if frac ≠ [] ∧ frac.all is_digit then
        some ((digitsVal intPart : ℚ) + (digitsVal frac : ℚ) / (10 : ℚ) ^ frac.length)
      else none
    | _ => none

/-- Model of `Scanner::peek`: `source.chars().nth(current)`, a character
index. -/
def peek (s : Scanner) : Option Char := s.source[s.current]?

/-- Model of `Scanner::peek_next`. -/
def peek_next (s : Scanner) : Option Char := s.source[s.current + 1]?

/-- Model of `Scanner::is_at_end`: `current >= source.len()` compares the
cursor against the byte length. -/
def is_at_end (s : Scanner) : Bool := utf8Len s.source ≤ s.current

/-- Model of `Scanner::advance`: the `expect` on `peek` is a panic
(`crash`) when the cursor has no character under it. -/
def advance (s : Scanner) : Out (Char × Scanner) :=
  match peek s with
  | some c => .ok (c, { s with current := s.current + 1 })
  | none => .crash

/-- Model of `Scanner::next_match`. -/
def next_match (s : Scanner) (expected : Char) : Bool × Scanner :=
  if peek s = some expected then (true, { s with current := s.current + 1 })
  else (false, s)

/-- Model of `Scanner::add_token`: the lexeme is the byte slice
`[start, current)` of the source. -/
def add_token (s : Scanner) (typ : TokenType) : Out Scanner :=
  match sliceBytes s.source s.start s.current with
  | some text => .ok { s with tokens := s.tokens ++ [⟨typ, String.mk text, s.line⟩] }
  | none => .crash

/-- Model of `Lox::error`: append one diagnostic. -/
def report (s : Scanner) (line : Nat) (msg : String) : Scanner :=
  { s with diags := s.diags ++ [(line, msg)] }

/-- Body loop of `Scanner::string`: consume characters up to (not
including) the closing quote, counting newlines inside the body. -/
def stringLoop : Nat → Scanner → Out Scanner
  | 0, _ => .spin
  | fuel + 1, s =>
    match peek s with
    | none => .ok s
    | some c =>
      if c = '"' then .ok s
      else
        let s := if c = '\n' then { s with line := s.line + 1 } else s
        match advance s with
        | .ok (_, s') => stringLoop fuel s'
        | .crash => .crash
        | .spin => .spin

/-- Model of `Scanner::string` (entered after the opening quote was
consumed). -/
def stringScan (fuel : Nat) (s : Scanner) : Out Scanner :=
  match stringLoop fuel s with
  | .ok s =>
    if is_at_end s then .ok (report s s.line "Unterminated string")
    else
      match advance s with
      | .ok (_, s) =>
        match sliceBytes s.source (s.start + 1) (s.current - 1) with
        | some lit => add_token s (.StringLit (String.mk lit))
        | none => .crash
      | .crash => .crash
      | .spin => .spin
  | e => e

/-- Inner fractional-part loop of `Scanner::number`.  As in the source, the
loop body does not break on a non-digit character. -/
def fracLoop : Nat → Scanner → Out Scanner
  | 0, _ => .spin
  | fuel + 1, s =>
    match peek s with
    | none => .ok s
    | some c =>
      if is_digit c then
        match advance s with
        | .ok (_, s') => fracLoop fuel s'
        | .crash => .crash
        | .spin => .spin
      else fracLoop fuel s

/-- Outer loop of `Scanner::number`. -/
def numLoop : Nat → Scanner → Out Scanner
  | 0, _ => .spin
  | fuel + 1, s =>
    match peek s with
    | none => .ok s
    | some c =>
      if is_digit c then
        match advance s with
        | .ok (_, s') => numLoop fuel s'
        | .crash => .crash
        | .spin => .spin
      else if c = '.' then
        if ((peek_next s).map is_digit).getD false = false then .ok s
        else
          match advance s with
          | .ok (_, s') =>
            match fracLoop fuel s' with
            | .ok s'' => numLoop fuel s''
            | .crash => .crash
            | .spin => .spin
          | .crash => .crash
          | .spin => .spin
      else .ok s

/-- Model of `Scanner::number`: run the digit loops, then parse the byte
slice `[start, current)`; a failed parse is the `expect` panic. -/
def numberScan (fuel : Nat) (s : Scanner) : Out Scanner :=
  match numLoop fuel s with
  | .ok s =>
    match sliceBytes s.source s.start s.current with
    | some span =>
      match parseF64 span with
      | some q => add_token s (.NumberLit q)
      | none => .crash
    | none => .crash
  | e => e

/-- Body loop of `Scanner::identifier`. -/
def identLoop : Nat → Scanner → Out Scanner
  | 0, _ => .spin
  | fuel + 1, s =>
    match peek s with
    | none => .ok s
    | some c =>
      if is_alphanumeric c then
        match advance s with
        | .ok (_, s') => identLoop fuel s'
        | .crash => .crash
        | .spin => .spin
      else .ok s

/-- Model of `Scanner::identifier`: consume the run, then classify the byte
slice against the keyword table. -/
def identifierScan (fuel : Nat) (s : Scanner) : Out Scanner :=
  match identLoop fuel s with
  | .ok s =>
    match sliceBytes s.source s.start s.current with
    | some txt => add_token s ((KEYWORDS_PAIRS.lookup (String.mk txt)).getD .Identifier)
    | none => .crash
  | e => e

/-- Comment loop in `Scanner::scan_token`: consume up to, excluding, the
next newline or end of input. -/
def commentLoop : Nat → Scanner → Out Scanner
  | 0, _ => .spin
  | fuel + 1, s =>
    match peek s with
    | none => .ok s
    | some c =>
      if c ≠ '\n' then
        match advance s with
        | .ok (_, s') => commentLoop fuel s'
        | .crash => .crash
        | .spin => .spin
      else .ok s

/-- Model of `Scanner::scan_token`: consume one character and classify. -/
def scanToken (fuel : Nat) (s : Scanner) : Out Scanner :=
  match advance s with
  | .crash => .crash
  | .spin => .spin
  | .ok (c, s) =>
    if c = '(' then add_token s .LeftParen
    else if c = ')' then add_token s .RightParen
    else if c = '{' then add_token s .LeftBrace
    else if c = '}' then add_token s .RightBrace
    else if c = ',' then add_token s .Comma
    else if c = '.' then add_token s .Dot
    else if c = '-' then add_token s .Minus
    else if c = '+' then add_token s .Plus
    else if c = ';' then add_token s .SemiColon
    else if c = '*' then add_token s .Star
    else if c = '"' then stringScan fuel s
    else if c = '!' then
      let p := next_match s '='
      add_token p.2 (if p.1 then .BangEqual else .Bang)
    else if c = '=' then
      let p := next_match s '='
      add_token p.2 (if p.1 then .EqualEqual else .Equal)
    else if c = '<' then
      let p := next_match s '='
      add_token p.2 (if p.1 then .LessEqual else .Less)
    else if c = '>' then
      let p := next_match s '='
      add_token p.2 (if p.1 then .GreaterEqual else .Greater)
    else if c = '/' then
      let p := next_match s '/'
      if p.1 then commentLoop fuel p.2 else add_token p.2 .Slash
    else if c = ' ' ∨ c = '\r' ∨ c = '\t' then .ok s
    else if c = '\n' then .ok { s with line := s.line + 1 }
    else if is_digit c then numberScan fuel s
    else if is_alpha c then identifierScan fuel s
    else .ok (report s s.line ("Unexpected character \x27" ++ c.toString ++ "\x27"))

/-- Main loop of `Scanner::scan_tokens`: while not at end, set
`start := current` and scan one token. -/
def scanLoop : Nat → Scanner → Out Scanner
  | 0, _ => .spin
  | fuel + 1, s =>
    if is_at_end s then .ok s
    else
      match scanToken fuel { s with start := s.current } with
      | .ok s' => scanLoop fuel s'
      | .crash => .crash
      | .spin => .spin

/-- Fresh scanner for a source text (`Scanner::new`). -/
def mkScanner (source : String) : Scanner :=
  { source := source.data, tokens := [], start := 0, current := 0, line := 1, diags := [] }

/-- Model of `Scanner::scan_tokens`: run the scan loop to completion and
append the end-of-input token. -/
def scan_tokens (fuel : Nat) (source : String) : Out Scanner :=
  match scanLoop fuel (mkScanner source) with
  | .ok s => .ok { s with tokens := s.tokens ++ [⟨.Eof, "", s.line⟩] }
  | e => e

/-- Cursor-state invariant of the scanner: `start <= current <= length` and
the line counter is 1-based.  The length here counts characters, which is
the unit `peek`/`advance` move the cursor in; the byte length `utf8Len`
dominates it, so the Rust-side bound `current <= source.len()` follows. -/
def ScanInv (s : Scanner) : Prop :=
  s.start ≤ s.current ∧ s.current ≤ s.source.length ∧ 1 ≤ s.line

/-- No token of the list is the end-of-input marker. -/
def tokensNoEof (ts : List Token) : Prop := ∀ t ∈ ts, t.typ ≠ TokenType.Eof

/-- The two characters under the cursor. -/
def twoCharAt (s : Scanner) (a b : Char) : Prop :=
  s.source[s.current]? = some a ∧ s.source[s.current + 1]? = some b

/-- Characters that start some recognized lexeme (or are skipped as
whitespace or newline) in `Scanner::scan_token`. -/
def recognizedStart (c : Char) : Bool :=
  c == '(' || c == ')' || c == '{' || c == '}' || c == ',' || c == '.' ||
  c == '-' || c == '+' || c == ';' || c == '*' || c == '"' || c == '!' ||
  c == '=' || c == '<' || c == '>' || c == '/' || c == ' ' || c == '\r' ||
  c == '\t' || c == '\n' || is_digit c || is_alpha c

/-- All characters encode to a single UTF-8 byte, so byte offsets and
character offsets into the text coincide. -/
def asciiOnly (l : List Char) : Prop := ∀ c ∈ l, c.utf8Size = 1

/-! ### The fractional-part loop of `Scanner::number` cannot leave a
non-digit character.  Its body advances only on digits and has no `break`,
so when the next character exists and is not a digit the loop spins with
unchanged state for every amount of fuel. -/

theorem fracLoop_stuck {c : Char} {s : Scanner} (hc : is_digit c = false)
    (h : peek s = some c) : ∀ fuel, fracLoop fuel s = .spin := by
  intro fuel
  induction fuel with
  | zero => rfl
  | succ g ih =>
    simp only [fracLoop, h]
    simp [hc, ih]

/-- On the source `2.5;`, the fractional loop entered after consuming `2.`
advances over `5` and then spins on `;`. -/
theorem fracLoop_spin_25 :
    ∀ fuel, fracLoop fuel ⟨['2', '.', '5', ';'], [], 0, 2, 1, []⟩ = .spin := by
  intro fuel
  cases fuel with
  | zero => rfl
  | succ g =>
    have h1 : fracLoop (g + 1) ⟨['2', '.', '5', ';'], [], 0, 2, 1, []⟩
        = fracLoop g ⟨['2', '.', '5', ';'], [], 0, 3, 1, []⟩ := rfl
    rw [h1]
    exact fracLoop_stuck (c := ';') (s := ⟨['2', '.', '5', ';'], [], 0, 3, 1, []⟩)
      (by decide) rfl g

/-- On the source `2.5;`, the outer number loop spins for every fuel. -/
theorem numLoop_spin_25 :
    ∀ fuel, numLoop fuel ⟨['2', '.', '5', ';'], [], 0, 1, 1, []⟩ = .spin := by
  intro fuel
  cases fuel with
  | zero => rfl
  | succ g =>
    have h1 : numLoop (g + 1) ⟨['2', '.', '5', ';'], [], 0, 1, 1, []⟩
        = match fracLoop g ⟨['2', '.', '5', ';'], [], 0, 2, 1, []⟩ with
          | .ok s'' => numLoop g s''
          | .crash => .crash
          | .spin => .spin := rfl
    rw [h1, fracLoop_spin_25 g]

/-- On the source `2.5;`, `Scanner::number` never returns: entered right
after the digit `2` was consumed, it spins for every fuel. -/
theorem numberScan_spin_25 :
    ∀ fuel, numberScan fuel ⟨['2', '.', '5', ';'], [], 0, 1, 1, []⟩ = .spin := by
  intro fuel
  simp only [numberScan, numLoop_spin_25 fuel]

/-- The main scan loop on `2.5;` spins for every positive fuel. -/
theorem scanLoop_spin_25 :
    ∀ fuel, scanLoop (fuel + 1) (mkScanner "2.5;") = .spin := by
  intro fuel
  have h1 : scanLoop (fuel + 1) (mkScanner "2.5;")
      = match scanToken fuel (mkScanner "2.5;") with
        | .ok s' => scanLoop fuel s'
        | .crash => .crash
        | .spin => .spin := rfl
  have h2 : scanToken fuel (mkScanner "2.5;")
      = numberScan fuel ⟨['2', '.', '5', ';'], [], 0, 1, 1, []⟩ := rfl
  rw [h1, h2, numberScan_spin_25 fuel]

/-- C1: the claim says every scan terminates, and in particular scanning a
number literal with a fractional part followed by a non-digit (the input
`2.5;`) terminates.  It does not: the fractional-part loop of
`Scanner::number` has no break for a non-digit character, so on `2.5;` the
scan runs out of any amount of fuel — the code loops forever. -/
theorem C1_scan_termination_fails : ∀ fuel, scan_tokens fuel "2.5;" = Out.spin := by
  intro fuel
  cases fuel with
  | zero => rfl
  | succ f => simp only [scan_tokens, scanLoop_spin_25 f]

/-- C2: the claim says no internal panic path is reachable, also for
non-ASCII source texts.  It is reachable: on the one-character source `é`
(two UTF-8 bytes), `is_at_end` compares the character cursor against the
byte length, so after the single character is consumed the scanner is not
"at end" and `advance` hits its `expect` on an empty `peek` — a panic,
for every amount of fuel beyond the two loop iterations. -/
theorem C2_panic_reachable : ∀ fuel, scan_tokens (fuel + 2) "é" = Out.crash :=
  fun _ => rfl

/-- C7: the claim says the scanner consumes a fractional part (a `.`
followed by digits) and then parses the full consumed span, as on `2.5;`
where it should emit `NumberLiteral(2.5)`.  Instead `Scanner::number`,
entered on `2.5;` right after consuming the `2`, spins forever for every
fuel, emitting nothing.  The claim's trailing-dot half does hold: `1.`
yields `NumberLiteral(1)` followed by `Dot`. -/
theorem C7_number_literal :
    (∀ fuel, numberScan fuel ⟨['2', '.', '5', ';'], [], 0, 1, 1, []⟩ = Out.spin)
    ∧ scan_tokens 9 "1." = Out.ok ⟨['1', '.'],
        [⟨.NumberLit 1, "1", 1⟩, ⟨.Dot, ".", 1⟩, ⟨.Eof, "", 1⟩], 1, 2, 1, []⟩ :=
  ⟨numberScan_spin_25, by decide⟩

/-- C9: the unterminated-string claim holds on the ASCII scenario named in
it — `"unterminated` yields only the end-of-input token plus exactly one
`Unterminated string` diagnostic at line 1 — but its universal part fails:
on the unterminated string `"é` the scanner panics (the cursor, counting
characters, never reaches the byte length that `is_at_end` tests) and no
diagnostic is ever reported. -/
theorem C9_unterminated_string :
    scan_tokens 20 "\"unterminated" = Out.ok ⟨"\"unterminated".data,
      [⟨.Eof, "", 1⟩], 0, 13, 1, [(1, "Unterminated string")]⟩
    ∧ scan_tokens 20 "\"é" = Out.crash :=
  ⟨by decide, rfl⟩

/-- C3 counterexample: the claim says a token's line is the line where its
lexeme began, so a string literal spanning a newline should carry the
opening quote's line (1).  The scanner records `self.line` at
`add_token` time, after the body's newlines were counted: on the source
`"a\nb"` the string token carries line 2, not 1. -/
theorem C3_counterexample :
    scan_tokens 20 "\"a\nb\"" = Out.ok ⟨['"', 'a', '\n', 'b', '"'],
      [⟨.StringLit "a\nb", "\"a\nb\"", 2⟩, ⟨.Eof, "", 2⟩], 0, 5, 2, []⟩
    ∧ (2 : Nat) ≠ 1 :=
  ⟨by decide, by decide⟩

/-- C10 counterexample: the claim says the `StringLiteral` payload is
always the raw source text strictly between the two quotes.  On the source
`//é\n"ab"` the scan reaches the string with `start = 4`, `current = 5`
(the state below), because the cursor counts characters; but the payload
slice `[start+1, current-1)` is in bytes, so the emitted payload is `"a`
(the quote itself plus `a`) instead of the text `ab` between the quotes. -/
theorem C10_counterexample :
    scanToken 10 ⟨"//é\n\"ab\"".data, [], 4, 4, 2, []⟩
      = Out.ok ⟨"//é\n\"ab\"".data,
          [⟨.StringLit "\"a", "\n\"ab", 2⟩], 4, 8, 2, []⟩
    ∧ ("\"a" : String) ≠ "ab" :=
  ⟨by decide, by decide⟩

/-- Unfolding of `recognizedStart c = false` into the individual facts the
branches of `scan_token` test. -/
theorem not_recognized (c : Char) (hc : recognizedStart c = false) :
    c ≠ '(' ∧ c ≠ ')' ∧ c ≠ '{' ∧ c ≠ '}' ∧ c ≠ ',' ∧ c ≠ '.' ∧ c ≠ '-' ∧
    c ≠ '+' ∧ c ≠ ';' ∧ c ≠ '*' ∧ c ≠ '"' ∧ c ≠ '!' ∧ c ≠ '=' ∧ c ≠ '<' ∧
    c ≠ '>' ∧ c ≠ '/' ∧ c ≠ ' ' ∧ c ≠ '\r' ∧ c ≠ '\t' ∧ c ≠ '\n' ∧
    is_digit c = false ∧ is_alpha c = false := by
  simp only [recognizedStart, Bool.or_eq_false_iff, beq_eq_false_iff_ne] at hc
  tauto

/-- C8: a character that starts no recognized lexeme makes `scan_token`
emit no token and report exactly one diagnostic at the current line whose
message names the character; the cursor moves one character, so each
consecutive invalid character gets its own diagnostic. -/
theorem C8_unexpected_character (fuel : Nat) (s : Scanner) (c : Char)
    (hpeek : peek s = some c) (hc : recognizedStart c = false) :
    scanToken fuel s = Out.ok { s with
      current := s.current + 1
      diags := s.diags ++
        [(s.line, "Unexpected character \x27" ++ c.toString ++ "\x27")] } := by
  obtain ⟨n1, n2, n3, n4, n5, n6, n7, n8, n9, n10, n11, n12, n13, n14, n15,
    n16, n17, n18, n19, n20, ndig, nalpha⟩ := not_recognized c hc
  simp only [scanToken, advance, hpeek]
  rw [if_neg n1, if_neg n2, if_neg n3, if_neg n4, if_neg n5, if_neg n6,
    if_neg n7, if_neg n8, if_neg n9, if_neg n10, if_neg n11, if_neg n12,
    if_neg n13, if_neg n14, if_neg n15, if_neg n16,
    if_neg (by simp [n17, n18, n19]), if_neg n20,
    if_neg (by simp [ndig]), if_neg (by simp [nalpha])]
  simp [report]

/-- Witness for C8 at the claim's own scenario: `@` is unrecognized, one
step emits no token and exactly one diagnostic naming `@`, and the whole
scan of `@` produces only the end-of-input token plus that diagnostic. -/
theorem C8_unexpected_character_witness :
    recognizedStart '@' = false
    ∧ scanToken 1 (mkScanner "@") = Out.ok { mkScanner "@" with
        current := 1
        diags := [(1, "Unexpected character \x27@\x27")] }
    ∧ scan_tokens 5 "@" = Out.ok ⟨['@'], [⟨.Eof, "", 1⟩], 0, 1, 1,
        [(1, "Unexpected character \x27@\x27")]⟩ :=
  ⟨by decide, C8_unexpected_character 1 (mkScanner "@") '@' rfl (by decide),
    by decide⟩

/-- C3 amended: every token emitted by `add_token` carries the scanner's
line counter at the moment of emission — the line where the lexeme ends —
not the line where the lexeme began. -/
theorem C3_amended_line_at_emission (s : Scanner) (ty : TokenType) (s' : Scanner)
    (h : add_token s ty = Out.ok s') :
    ∃ text, s'.tokens = s.tokens ++ [⟨ty, text, s.line⟩] := by
  unfold add_token at h
  cases hsl : sliceBytes s.source s.start s.current with
  | none => rw [hsl] at h; cases h
  | some text => rw [hsl] at h; cases h; exact ⟨String.mk text, rfl⟩

/-- Witness for the amended C3: a concrete `add_token` call stamps the
current line (5) on the emitted token. -/
theorem C3_amended_line_at_emission_witness :
    ∃ text, (⟨['a'], [⟨.Identifier, "a", 5⟩], 0, 1, 5, []⟩ : Scanner).tokens
      = ([] : List Token) ++ [⟨.Identifier, text, 5⟩] :=
  C3_amended_line_at_emission ⟨['a'], [], 0, 1, 5, []⟩ .Identifier
    ⟨['a'], [⟨.Identifier, "a", 5⟩], 0, 1, 5, []⟩ rfl

/-- Where the comment loop stops: tokens and diagnostics are untouched and
the cursor rests on the next newline or at the end of input. -/
theorem commentLoop_ok : ∀ (fuel : Nat) (s s' : Scanner),
    commentLoop fuel s = Out.ok s' →
    s'.tokens = s.tokens ∧ s'.diags = s.diags ∧
      (peek s' = none ∨ peek s' = some '\n') := by
  intro fuel
  induction fuel with
  | zero => intro s s' h; cases h
  | succ g ih =>
    intro s s' h
    cases hp : peek s with
    | none =>
      simp only [commentLoop, hp] at h
      cases h
      exact ⟨rfl, rfl, Or.inl hp⟩
    | some c =>
      by_cases hc : c = '\n'
      · subst hc
        simp only [commentLoop, hp, ne_eq, not_true_eq_false, if_false] at h
        cases h
        exact ⟨rfl, rfl, Or.inr hp⟩
      · simp only [commentLoop, hp, ne_eq, hc, not_false_eq_true, if_true,
          advance] at h
        exact ih { s with current := s.current + 1 } s' h

/-- C6: maximal munch.  When the two characters under the cursor are `<=`
(likewise `!=`, `==`, `>=`), one scan step emits exactly one token, of the
two-character kind — never `Less` followed by `Equal`; when they are `//`,
the step emits no token at all and leaves the cursor on the next newline or
at end of input, never producing two `Slash` tokens. -/
theorem C6_maximal_munch (fuel : Nat) (s : Scanner) :
    (twoCharAt s '<' '=' → ∀ s', scanToken fuel s = Out.ok s' →
      ∃ t, s'.tokens = s.tokens ++ [t] ∧ t.typ = TokenType.LessEqual)
    ∧ (twoCharAt s '!' '=' → ∀ s', scanToken fuel s = Out.ok s' →
      ∃ t, s'.tokens = s.tokens ++ [t] ∧ t.typ = TokenType.BangEqual)
    ∧ (twoCharAt s '=' '=' → ∀ s', scanToken fuel s = Out.ok s' →
      ∃ t, s'.tokens = s.tokens ++ [t] ∧ t.typ = TokenType.EqualEqual)
    ∧ (twoCharAt s '>' '=' → ∀ s', scanToken fuel s = Out.ok s' →
      ∃ t, s'.tokens = s.tokens ++ [t] ∧ t.typ = TokenType.GreaterEqual)
    ∧ (twoCharAt s '/' '/' → ∀ s', scanToken fuel s = Out.ok s' →
      s'.tokens = s.tokens ∧ (peek s' = none ∨ peek s' = some '\n')) := by
  refine ⟨?_, ?_, ?_, ?_, ?_⟩ <;> rintro ⟨h1, h2⟩ s' hrun
  · simp [scanToken, advance, peek, h1, next_match, h2, add_token] at hrun
    cases hsl : sliceBytes s.source s.start (s.current + 1 + 1) with
    | none => rw [hsl] at hrun; cases hrun
    | some text =>
      rw [hsl] at hrun
      cases hrun
      exact ⟨⟨.LessEqual, String.mk text, s.line⟩, rfl, rfl⟩
  · simp [scanToken, advance, peek, h1, next_match, h2, add_token] at hrun
    cases hsl : sliceBytes s.source s.start (s.current + 1 + 1) with
    | none => rw [hsl] at hrun; cases hrun
    | some text =>
      rw [hsl] at hrun
      cases hrun
      exact ⟨⟨.BangEqual, String.mk text, s.line⟩, rfl, rfl⟩
  · simp [scanToken, advance, peek, h1, next_match, h2, add_token] at hrun
    cases hsl : sliceBytes s.source s.start (s.current + 1 + 1) with
    | none => rw [hsl] at hrun; cases hrun
    | some text =>
      rw [hsl] at hrun
      cases hrun
      exact ⟨⟨.EqualEqual, String.mk text, s.line⟩, rfl, rfl⟩
  · simp [scanToken, advance, peek, h1, next_match, h2, add_token] at hrun
    cases hsl : sliceBytes s.source s.start (s.current + 1 + 1) with
    | none => rw [hsl] at hrun; cases hrun
    | some text =>
      rw [hsl] at hrun
      cases hrun
      exact ⟨⟨.GreaterEqual, String.mk text, s.line⟩, rfl, rfl⟩
  · simp [scanToken, advance, peek, h1, next_match, h2] at hrun
    obtain ⟨ht, _, hpk⟩ := commentLoop_ok _ _ _ hrun
    exact ⟨ht, hpk⟩

/-- Witness for C6: one scan step on each of `<=`, `!=`, `==`, `>=` emits
the single two-character token, and on `//ab\nx` the comment consumes up to
but excluding the newline, emitting nothing. -/
theorem C6_maximal_munch_witness :
    (∃ t, [(⟨.LessEqual, "<=", 1⟩ : Token)] = ([] : List Token) ++ [t]
      ∧ t.typ = TokenType.LessEqual)
    ∧ (∃ t, [(⟨.BangEqual, "!=", 1⟩ : Token)] = ([] : List Token) ++ [t]
      ∧ t.typ = TokenType.BangEqual)
    ∧ (∃ t, [(⟨.EqualEqual, "==", 1⟩ : Token)] = ([] : List Token) ++ [t]
      ∧ t.typ = TokenType.EqualEqual)
    ∧ (∃ t, [(⟨.GreaterEqual, ">=", 1⟩ : Token)] = ([] : List Token) ++ [t]
      ∧ t.typ = TokenType.GreaterEqual)
    ∧ (([] : List Token) = []
      ∧ (peek ⟨['/', '/', 'a', 'b', '\n', 'x'], [], 0, 4, 1, []⟩ = none
        ∨ peek ⟨['/', '/', 'a', 'b', '\n', 'x'], [], 0, 4, 1, []⟩ = some '\n')) := by
  refine ⟨?_, ?_, ?_, ?_, ?_⟩
  · exact (C6_maximal_munch 5 ⟨['<', '='], [], 0, 0, 1, []⟩).1 ⟨rfl, rfl⟩
      ⟨['<', '='], [⟨.LessEqual, "<=", 1⟩], 0, 2, 1, []⟩ rfl
  · exact (C6_maximal_munch 5 ⟨['!', '='], [], 0, 0, 1, []⟩).2.1 ⟨rfl, rfl⟩
      ⟨['!', '='], [⟨.BangEqual, "!=", 1⟩], 0, 2, 1, []⟩ rfl
  · exact (C6_maximal_munch 5 ⟨['=', '='], [], 0, 0, 1, []⟩).2.2.1 ⟨rfl, rfl⟩
      ⟨['=', '='], [⟨.EqualEqual, "==", 1⟩], 0, 2, 1, []⟩ rfl
  · exact (C6_maximal_munch 5 ⟨['>', '='], [], 0, 0, 1, []⟩).2.2.2.1 ⟨rfl, rfl⟩
      ⟨['>', '='], [⟨.GreaterEqual, ">=", 1⟩], 0, 2, 1, []⟩ rfl
  · exact (C6_maximal_munch 5 ⟨['/', '/', 'a', 'b', '\n', 'x'], [], 0, 0, 1, []⟩).2.2.2.2
      ⟨rfl, rfl⟩ ⟨['/', '/', 'a', 'b', '\n', 'x'], [], 0, 4, 1, []⟩ rfl


/-- Keyword lookup never yields the end-of-input kind. -/
theorem keywords_not_eof (w : String) :
    (KEYWORDS_PAIRS.lookup w).getD .Identifier ≠ TokenType.Eof := by
  simp only [KEYWORDS_PAIRS, List.lookup]
  repeat' split
  all_goals decide

/-- Transport of `tokensNoEof` along an equality of token lists. -/
theorem tokensNoEof_congr {a b : List Token} (h : a = b) (hb : tokensNoEof b) :
    tokensNoEof a := h ▸ hb

/-- The string-body loop never touches the token list. -/
theorem stringLoop_tokens : ∀ (fuel : Nat) (s s' : Scanner),
    stringLoop fuel s = Out.ok s' → s'.tokens = s.tokens := by
  intro fuel
  induction fuel with
  | zero => intro s s' h; cases h
  | succ g ih =>
    intro s s' h
    cases hp : peek s with
    | none => simp only [stringLoop, hp] at h; cases h; rfl
    | some c =>
      by_cases hq : c = '"'
      · subst hq
        simp only [stringLoop, hp, if_pos rfl] at h
        cases h; rfl
      · have hp' : s.source[s.current]? = some c := hp
        by_cases hn : c = '\n'
        · subst hn
          simp [stringLoop, hp, hp', hq, advance, peek] at h
          have h2 := ih _ _ h
          exact h2
        · simp [stringLoop, hp, hp', hq, hn, advance, peek] at h
          have h2 := ih _ _ h
          exact h2

/-- The fractional-part loop never touches the token list. -/
theorem fracLoop_tokens : ∀ (fuel : Nat) (s s' : Scanner),
    fracLoop fuel s = Out.ok s' → s'.tokens = s.tokens := by
  intro fuel
  induction fuel with
  | zero => intro s s' h; cases h
  | succ g ih =>
    intro s s' h
    cases hp : peek s with
    | none => simp only [fracLoop, hp] at h; cases h; rfl
    | some c =>
      have hp' : s.source[s.current]? = some c := hp
      by_cases hd : is_digit c
      · simp [fracLoop, hp, hp', hd, advance, peek] at h
        have h2 := ih _ _ h
        exact h2
      · simp [fracLoop, hp, hd] at h
        have h2 := ih _ _ h
        exact h2

/-- The outer number loop never touches the token list. -/
theorem numLoop_tokens : ∀ (fuel : Nat) (s s' : Scanner),
    numLoop fuel s = Out.ok s' → s'.tokens = s.tokens := by
  intro fuel
  induction fuel with
  | zero => intro s s' h; cases h
  | succ g ih =>
    intro s s' h
    cases hp : peek s with
    | none => simp only [numLoop, hp] at h; cases h; rfl
    | some c =>
      have hp' : s.source[s.current]? = some c := hp
      by_cases hd : is_digit c
      · simp [numLoop, hp, hp', hd, advance, peek] at h
        have h2 := ih _ _ h
        exact h2
      · by_cases hdot : c = '.'
        · subst hdot
          by_cases hnx : ((peek_next s).map is_digit).getD false = false
          · simp [numLoop, hp, hd, hnx] at h
            cases h; rfl
          · simp [numLoop, hp, hp', hd, hnx, advance, peek] at h
            cases hf : fracLoop g { s with current := s.current + 1 } with
            | crash => rw [hf] at h; cases h
            | spin => rw [hf] at h; cases h
            | ok s2 =>
              rw [hf] at h
              have hf2 := fracLoop_tokens g _ _ hf
              have h2 := ih _ _ h
              rw [h2, hf2]
        · simp [numLoop, hp, hd, hdot] at h
          cases h; rfl

/-- The identifier loop never touches the token list. -/
theorem identLoop_tokens : ∀ (fuel : Nat) (s s' : Scanner),
    identLoop fuel s = Out.ok s' → s'.tokens = s.tokens := by
  intro fuel
  induction fuel with
  | zero => intro s s' h; cases h
  | succ g ih =>
    intro s s' h
    cases hp : peek s with
    | none => simp only [identLoop, hp] at h; cases h; rfl
    | some c =>
      have hp' : s.source[s.current]? = some c := hp
      by_cases ha : is_alphanumeric c
      · simp [identLoop, hp, hp', ha, advance, peek] at h
        have h2 := ih _ _ h
        exact h2
      · simp [identLoop, hp, ha] at h
        cases h; rfl

/-- `add_token` with a non-`Eof` kind preserves `tokensNoEof`. -/
theorem add_token_noEof (s : Scanner) (ty : TokenType) (s' : Scanner)
    (ht : ty ≠ TokenType.Eof) (h : add_token s ty = Out.ok s')
    (hno : tokensNoEof s.tokens) : tokensNoEof s'.tokens := by
  unfold add_token at h
  cases hsl : sliceBytes s.source s.start s.current with
  | none => rw [hsl] at h; cases h
  | some text =>
    rw [hsl] at h
    cases h
    intro tk hmem
    rcases List.mem_append.mp hmem with hm | hm
    · exact hno tk hm
    · rw [List.mem_singleton.mp hm]
      exact ht

/-- `Scanner::string` preserves `tokensNoEof` (it can only add a
`StringLit`). -/
theorem stringScan_noEof (fuel : Nat) (s s' : Scanner)
    (h : stringScan fuel s = Out.ok s') (hno : tokensNoEof s.tokens) :
    tokensNoEof s'.tokens := by
  unfold stringScan at h
  cases hl : stringLoop fuel s with
  | crash => rw [hl] at h; cases h
  | spin => rw [hl] at h; cases h
  | ok s1 =>
    simp only [hl] at h
    have h1 : s1.tokens = s.tokens := stringLoop_tokens _ _ _ hl
    have hno1 : tokensNoEof s1.tokens := tokensNoEof_congr h1 hno
    cases he : is_at_end s1 with
    | true =>
      simp [he] at h
      subst h
      exact hno1
    | false =>
      simp only [he, Bool.false_eq_true, if_false] at h
      cases hp : peek s1 with
      | none => simp only [advance, hp] at h; cases h
      | some c =>
        simp only [advance, hp] at h
        cases hsl : sliceBytes s1.source (s1.start + 1) (s1.current + 1 - 1) with
        | none => simp only [hsl] at h; cases h
        | some lit =>
          simp only [hsl] at h
          exact add_token_noEof _ _ _ (by simp) h hno1

/-- `Scanner::number` preserves `tokensNoEof` (it can only add a
`NumberLit`). -/
theorem numberScan_noEof (fuel : Nat) (s s' : Scanner)
    (h : numberScan fuel s = Out.ok s') (hno : tokensNoEof s.tokens) :
    tokensNoEof s'.tokens := by
  unfold numberScan at h
  cases hl : numLoop fuel s with
  | crash => rw [hl] at h; cases h
  | spin => rw [hl] at h; cases h
  | ok s1 =>
    simp only [hl] at h
    have hno1 : tokensNoEof s1.tokens :=
      tokensNoEof_congr (numLoop_tokens _ _ _ hl) hno
    cases hsl : sliceBytes s1.source s1.start s1.current with
    | none => simp only [hsl] at h; cases h
    | some span =>
      simp only [hsl] at h
      cases hq : parseF64 span with
      | none => simp only [hq] at h; cases h
      | some q =>
        simp only [hq] at h
        exact add_token_noEof _ _ _ (by simp) h hno1

/-- `Scanner::identifier` preserves `tokensNoEof`: the keyword table has no
`Eof` entry and the fallback is `Identifier`. -/
theorem identifierScan_noEof (fuel : Nat) (s s' : Scanner)
    (h : identifierScan fuel s = Out.ok s') (hno : tokensNoEof s.tokens) :
    tokensNoEof s'.tokens := by
  unfold identifierScan at h
  cases hl : identLoop fuel s with
  | crash => rw [hl] at h; cases h
  | spin => rw [hl] at h; cases h
  | ok s1 =>
    simp only [hl] at h
    have hno1 : tokensNoEof s1.tokens :=
      tokensNoEof_congr (identLoop_tokens _ _ _ hl) hno
    cases hsl : sliceBytes s1.source s1.start s1.current with
    | none => simp only [hsl] at h; cases h
    | some txt =>
      simp only [hsl] at h
      exact add_token_noEof _ _ _ (keywords_not_eof _) h hno1

/-- The two-character operator step (`! = < >` possibly followed by `=`)
preserves `tokensNoEof` when both candidate kinds are not `Eof`. -/
theorem twoCharToken_noEof (s s' : Scanner) (a b : TokenType)
    (ha : a ≠ TokenType.Eof) (hb : b ≠ TokenType.Eof) (e : Char)
    (h : add_token (next_match s e).2 (if (next_match s e).1 then a else b)
      = Out.ok s')
    (hno : tokensNoEof s.tokens) : tokensNoEof s'.tokens := by
  have hno2 : tokensNoEof ((next_match s e).2).tokens := by
    unfold next_match
    split <;> exact hno
  cases hm : (next_match s e).1 with
  | true =>
    simp only [hm, if_true] at h
    exact add_token_noEof _ _ _ ha h hno2
  | false =>
    simp only [hm, Bool.false_eq_true, if_false] at h
    exact add_token_noEof _ _ _ hb h hno2

/-- One step of `scan_token` preserves `tokensNoEof`: no branch emits an
`Eof` token. -/
theorem scanToken_noEof (fuel : Nat) (s s' : Scanner)
    (h : scanToken fuel s = Out.ok s') (hno : tokensNoEof s.tokens) :
    tokensNoEof s'.tokens := by
  unfold scanToken at h
  cases hp : peek s with
  | none => simp only [advance, hp] at h; cases h
  | some c =>
    simp only [advance, hp] at h
    by_cases h1 : c = '('
    · rw [if_pos h1] at h
      exact add_token_noEof _ _ _ (by simp) h hno
    rw [if_neg h1] at h
    by_cases h2 : c = ')'
    · rw [if_pos h2] at h
      exact add_token_noEof _ _ _ (by simp) h hno
    rw [if_neg h2] at h
    by_cases h3 : c = '{'
    · rw [if_pos h3] at h
      exact add_token_noEof _ _ _ (by simp) h hno
    rw [if_neg h3] at h
    by_cases h4 : c = '}'
    · rw [if_pos h4] at h
      exact add_token_noEof _ _ _ (by simp) h hno
    rw [if_neg h4] at h
    by_cases h5 : c = ','
    · rw [if_pos h5] at h
      exact add_token_noEof _ _ _ (by simp) h hno
    rw [if_neg h5] at h
    by_cases h6 : c = '.'
    · rw [if_pos h6] at h
      exact add_token_noEof _ _ _ (by simp) h hno
    rw [if_neg h6] at h
    by_cases h7 : c = '-'
    · rw [if_pos h7] at h
      exact add_token_noEof _ _ _ (by simp) h hno
    rw [if_neg h7] at h
    by_cases h8 : c = '+'
    · rw [if_pos h8] at h
      exact add_token_noEof _ _ _ (by simp) h hno
    rw [if_neg h8] at h
    by_cases h9 : c = ';'
    · rw [if_pos h9] at h
      exact add_token_noEof _ _ _ (by simp) h hno
    rw [if_neg h9] at h
    by_cases h10 : c = '*'
    · rw [if_pos h10] at h
      exact add_token_noEof _ _ _ (by simp) h hno
    rw [if_neg h10] at h
    by_cases h11 : c = '"'
    · rw [if_pos h11] at h
      exact stringScan_noEof _ _ _ h hno
    rw [if_neg h11] at h
    by_cases h12 : c = '!'
    · rw [if_pos h12] at h
      exact twoCharToken_noEof _ _ _ _ (by simp) (by simp) _ h hno
    rw [if_neg h12] at h
    by_cases h13 : c = '='
    · rw [if_pos h13] at h
      exact twoCharToken_noEof _ _ _ _ (by simp) (by simp) _ h hno
    rw [if_neg h13] at h
    by_cases h14 : c = '<'
    · rw [if_pos h14] at h
      exact twoCharToken_noEof _ _ _ _ (by simp) (by simp) _ h hno
    rw [if_neg h14] at h
    by_cases h15 : c = '>'
    · rw [if_pos h15] at h
      exact twoCharToken_noEof _ _ _ _ (by simp) (by simp) _ h hno
    rw [if_neg h15] at h
    by_cases h16 : c = '/'
    · rw [if_pos h16] at h
      have hno2 : tokensNoEof
          (((next_match { s with current := s.current + 1 } '/').2)).tokens := by
        unfold next_match
        split <;> exact hno
      cases hm : (next_match { s with current := s.current + 1 } '/').1 with
      | true =>
        simp only [hm, if_true] at h
        exact tokensNoEof_congr (commentLoop_ok _ _ _ h).1 hno2
      | false =>
        simp only [hm, Bool.false_eq_true, if_false] at h
        exact add_token_noEof _ _ _ (by simp) h hno2
    rw [if_neg h16] at h
    by_cases h17 : c = ' ' ∨ c = '\r' ∨ c = '\t'
    · rw [if_pos h17] at h
      cases h
      exact hno
    rw [if_neg h17] at h
    by_cases h18 : c = '\n'
    · rw [if_pos h18] at h
      cases h
      exact hno
    rw [if_neg h18] at h
    by_cases h19 : is_digit c = true
    · rw [if_pos h19] at h
      exact numberScan_noEof _ _ _ h hno
    rw [if_neg h19] at h
    by_cases h20 : is_alpha c = true
    · rw [if_pos h20] at h
      exact identifierScan_noEof _ _ _ h hno
    rw [if_neg h20] at h
    cases h
    exact hno

/-- The main scan loop preserves `tokensNoEof`. -/
theorem scanLoop_noEof : ∀ (fuel : Nat) (s s' : Scanner),
    scanLoop fuel s = Out.ok s' → tokensNoEof s.tokens → tokensNoEof s'.tokens := by
  intro fuel
  induction fuel with
  | zero => intro s s' h hno; cases h
  | succ g ih =>
    intro s s' h hno
    cases he : is_at_end s with
    | true =>
      simp [scanLoop, he] at h
      subst h
      exact hno
    | false =>
      simp only [scanLoop, he, Bool.false_eq_true, if_false] at h
      cases hst : scanToken g { s with start := s.current } with
      | crash => simp only [hst] at h; cases h
      | spin => simp only [hst] at h; cases h
      | ok s1 =>
        simp only [hst] at h
        have h2 := ih _ _ h (scanToken_noEof _ _ _ hst hno)
        exact h2

/-- C4: a successful scan returns a non-empty token sequence whose last
element is the `Eof` token with an empty lexeme carrying the final line
counter, and `Eof` occurs exactly once in the sequence. -/
theorem C4_eof_token (fuel : Nat) (src : String) (s : Scanner)
    (h : scan_tokens fuel src = Out.ok s) :
    s.tokens ≠ [] ∧ s.tokens.getLast? = some ⟨TokenType.Eof, "", s.line⟩
      ∧ s.tokens.countP (fun t => decide (t.typ = TokenType.Eof)) = 1 := by
  unfold scan_tokens at h
  cases hl : scanLoop fuel (mkScanner src) with
  | crash => rw [hl] at h; cases h
  | spin => rw [hl] at h; cases h
  | ok s0 =>
    simp only [hl] at h
    cases h
    have hno : tokensNoEof s0.tokens :=
      scanLoop_noEof _ _ _ hl (by intro t ht; cases ht)
    refine ⟨by simp, by simp, ?_⟩
    rw [List.countP_append]
    have hz : s0.tokens.countP (fun t => decide (t.typ = TokenType.Eof)) = 0 := by
      rw [List.countP_eq_zero]
      intro t ht
      simp [hno t ht]
    simp [hz]

/-- Witness for C4 on the empty source: three units of fuel scan `""` to
exactly one `Eof` token on line 1 with empty lexeme. -/
theorem C4_eof_token_witness :
    scan_tokens 3 "" = Out.ok ⟨[], [⟨TokenType.Eof, "", 1⟩], 0, 0, 1, []⟩
    ∧ ((⟨[], [⟨TokenType.Eof, "", 1⟩], 0, 0, 1, []⟩ : Scanner).tokens ≠ []
      ∧ (⟨[], [⟨TokenType.Eof, "", 1⟩], 0, 0, 1, []⟩ : Scanner).tokens.getLast?
          = some ⟨TokenType.Eof, "", (1 : Nat)⟩
      ∧ (⟨[], [⟨TokenType.Eof, "", 1⟩], 0, 0, 1, []⟩ : Scanner).tokens.countP
          (fun t => decide (t.typ = TokenType.Eof)) = 1) :=
  ⟨rfl, C4_eof_token 3 "" ⟨[], [⟨TokenType.Eof, "", 1⟩], 0, 0, 1, []⟩ rfl⟩


/-- Every character takes at least one UTF-8 byte, so the character count
is bounded by the byte length. -/
theorem charLen_le_utf8Len (l : List Char) : l.length ≤ utf8Len l := by
  induction l with
  | nil => simp [utf8Len]
  | cons c cs ih =>
    have hc : 0 < c.utf8Size := Char.utf8Size_pos c
    simp only [utf8Len, List.map_cons, List.sum_cons, List.length_cons]
    simp only [utf8Len] at ih
    omega

/-- A successful `peek` means the cursor is strictly inside the text. -/
theorem peek_lt {s : Scanner} {c : Char} (hp : peek s = some c) :
    s.current < s.source.length := by
  unfold peek at hp
  by_contra hlt
  rw [List.getElem?_eq_none (by omega)] at hp
  cases hp

/-- Advancing the cursor after a successful `peek` preserves the
invariant. -/
theorem step_inv {s : Scanner} {c : Char} (hi : ScanInv s) (hp : peek s = some c) :
    ScanInv { s with current := s.current + 1 } :=
  ⟨Nat.le_succ_of_le hi.1, peek_lt hp, hi.2.2⟩

/-- Bumping the line counter preserves the invariant. -/
theorem line_inv {s : Scanner} (hi : ScanInv s) :
    ScanInv { s with line := s.line + 1 } :=
  ⟨hi.1, hi.2.1, Nat.le_succ_of_le hi.2.2⟩

/-- `add_token` preserves the invariant (it only appends a token). -/
theorem add_token_inv (s : Scanner) (ty : TokenType) (s' : Scanner)
    (h : add_token s ty = Out.ok s') (hi : ScanInv s) : ScanInv s' := by
  unfold add_token at h
  cases hsl : sliceBytes s.source s.start s.current with
  | none => rw [hsl] at h; cases h
  | some text => rw [hsl] at h; cases h; exact hi

/-- `next_match` preserves the invariant. -/
theorem next_match_inv (s : Scanner) (e : Char) (hi : ScanInv s) :
    ScanInv (next_match s e).2 := by
  by_cases hm : peek s = some e
  · unfold next_match
    rw [if_pos hm]
    exact step_inv hi hm
  · unfold next_match
    rw [if_neg hm]
    exact hi

/-- The string-body loop preserves the invariant. -/
theorem stringLoop_inv : ∀ (fuel : Nat) (s s' : Scanner),
    stringLoop fuel s = Out.ok s' → ScanInv s → ScanInv s' := by
  intro fuel
  induction fuel with
  | zero => intro s s' h _; cases h
  | succ g ih =>
    intro s s' h hi
    cases hp : peek s with
    | none => simp only [stringLoop, hp] at h; cases h; exact hi
    | some c =>
      by_cases hq : c = '"'
      · subst hq
        simp only [stringLoop, hp, if_pos rfl] at h
        cases h; exact hi
      · have hp' : s.source[s.current]? = some c := hp
        by_cases hn : c = '\n'
        · subst hn
          simp [stringLoop, hp, hp', hq, advance, peek] at h
          have h2 := ih _ _ h (step_inv (line_inv hi) hp)
          exact h2
        · simp [stringLoop, hp, hp', hq, hn, advance, peek] at h
          have h2 := ih _ _ h (step_inv hi hp)
          exact h2

/-- The fractional-part loop preserves the invariant. -/
theorem fracLoop_inv : ∀ (fuel : Nat) (s s' : Scanner),
    fracLoop fuel s = Out.ok s' → ScanInv s → ScanInv s' := by
  intro fuel
  induction fuel with
  | zero => intro s s' h _; cases h
  | succ g ih =>
    intro s s' h hi
    cases hp : peek s with
    | none => simp only [fracLoop, hp] at h; cases h; exact hi
    | some c =>
      have hp' : s.source[s.current]? = some c := hp
      by_cases hd : is_digit c
      · simp [fracLoop, hp, hp', hd, advance, peek] at h
        have h2 := ih _ _ h (step_inv hi hp)
        exact h2
      · simp [fracLoop, hp, hd] at h
        have h2 := ih _ _ h hi
        exact h2

/-- The outer number loop preserves the invariant. -/
theorem numLoop_inv : ∀ (fuel : Nat) (s s' : Scanner),
    numLoop fuel s = Out.ok s' → ScanInv s → ScanInv s' := by
  intro fuel
  induction fuel with
  | zero => intro s s' h _; cases h
  | succ g ih =>
    intro s s' h hi
    cases hp : peek s with
    | none => simp only [numLoop, hp] at h; cases h; exact hi
    | some c =>
      have hp' : s.source[s.current]? = some c := hp
      by_cases hd : is_digit c
      · simp [numLoop, hp, hp', hd, advance, peek] at h
        have h2 := ih _ _ h (step_inv hi hp)
        exact h2
      · by_cases hdot : c = '.'
        · subst hdot
          by_cases hnx : ((peek_next s).map is_digit).getD false = false
          · simp [numLoop, hp, hd, hnx] at h
            cases h; exact hi
          · simp [numLoop, hp, hp', hd, hnx, advance, peek] at h
            cases hf : fracLoop g { s with current := s.current + 1 } with
            | crash => rw [hf] at h; cases h
            | spin => rw [hf] at h; cases h
            | ok s2 =>
              rw [hf] at h
              have hi2 := fracLoop_inv g _ _ hf (step_inv hi hp)
              have h2 := ih _ _ h hi2
              exact h2
        · simp [numLoop, hp, hd, hdot] at h
          cases h; exact hi

/-- The identifier loop preserves the invariant. -/
theorem identLoop_inv : ∀ (fuel : Nat) (s s' : Scanner),
    identLoop fuel s = Out.ok s' → ScanInv s → ScanInv s' := by
  intro fuel
  induction fuel with
  | zero => intro s s' h _; cases h
  | succ g ih =>
    intro s s' h hi
    cases hp : peek s with
    | none => simp only [identLoop, hp] at h; cases h; exact hi
    | some c =>
      have hp' : s.source[s.current]? = some c := hp
      by_cases ha : is_alphanumeric c
      · simp [identLoop, hp, hp', ha, advance, peek] at h
        have h2 := ih _ _ h (step_inv hi hp)
        exact h2
      · simp [identLoop, hp, ha] at h
        cases h; exact hi

/-- The comment loop preserves the invariant. -/
theorem commentLoop_inv : ∀ (fuel : Nat) (s s' : Scanner),
    commentLoop fuel s = Out.ok s' → ScanInv s → ScanInv s' := by
  intro fuel
  induction fuel with
  | zero => intro s s' h _; cases h
  | succ g ih =>
    intro s s' h hi
    cases hp : peek s with
    | none => simp only [commentLoop, hp] at h; cases h; exact hi
    | some c =>
      by_cases hc : c = '\n'
      · subst hc
        simp only [commentLoop, hp, ne_eq, not_true_eq_false, if_false] at h
        cases h; exact hi
      · simp only [commentLoop, hp, ne_eq, hc, not_false_eq_true, if_true,
          advance] at h
        have h2 := ih _ _ h (step_inv hi hp)
        exact h2

/-- `Scanner::string` preserves the invariant. -/
theorem stringScan_inv (fuel : Nat) (s s' : Scanner)
    (h : stringScan fuel s = Out.ok s') (hi : ScanInv s) : ScanInv s' := by
  unfold stringScan at h
  cases hl : stringLoop fuel s with
  | crash => rw [hl] at h; cases h
  | spin => rw [hl] at h; cases h
  | ok s1 =>
    simp only [hl] at h
    have hi1 : ScanInv s1 := stringLoop_inv _ _ _ hl hi
    cases he : is_at_end s1 with
    | true =>
      simp [he] at h
      subst h
      exact hi1
    | false =>
      simp only [he, Bool.false_eq_true, if_false] at h
      cases hp : peek s1 with
      | none => simp only [advance, hp] at h; cases h
      | some c =>
        simp only [advance, hp] at h
        cases hsl : sliceBytes s1.source (s1.start + 1) (s1.current + 1 - 1) with
        | none => simp only [hsl] at h; cases h
        | some lit =>
          simp only [hsl] at h
          exact add_token_inv _ _ _ h (step_inv hi1 hp)

/-- `Scanner::number` preserves the invariant. -/
theorem numberScan_inv (fuel : Nat) (s s' : Scanner)
    (h : numberScan fuel s = Out.ok s') (hi : ScanInv s) : ScanInv s' := by
  unfold numberScan at h
  cases hl : numLoop fuel s with
  | crash => rw [hl] at h; cases h
  | spin => rw [hl] at h; cases h
  | ok s1 =>
    simp only [hl] at h
    have hi1 : ScanInv s1 := numLoop_inv _ _ _ hl hi
    cases hsl : sliceBytes s1.source s1.start s1.current with
    | none => simp only [hsl] at h; cases h
    | some span =>
      simp only [hsl] at h
      cases hq : parseF64 span with
      | none => simp only [hq] at h; cases h
      | some q =>
        simp only [hq] at h
        exact add_token_inv _ _ _ h hi1

/-- `Scanner::identifier` preserves the invariant. -/
theorem identifierScan_inv (fuel : Nat) (s s' : Scanner)
    (h : identifierScan fuel s = Out.ok s') (hi : ScanInv s) : ScanInv s' := by
  unfold identifierScan at h
  cases hl : identLoop fuel s with
  | crash => rw [hl] at h; cases h
  | spin => rw [hl] at h; cases h
  | ok s1 =>
    simp only [hl] at h
    have hi1 : ScanInv s1 := identLoop_inv _ _ _ hl hi
    cases hsl : sliceBytes s1.source s1.start s1.current with
    | none => simp only [hsl] at h; cases h
    | some txt =>
      simp only [hsl] at h
      exact add_token_inv _ _ _ h hi1

/-- One step of `scan_token` preserves the invariant. -/
theorem scanToken_inv (fuel : Nat) (s s' : Scanner)
    (h : scanToken fuel s = Out.ok s') (hi : ScanInv s) : ScanInv s' := by
  unfold scanToken at h
  cases hp : peek s with
  | none => simp only [advance, hp] at h; cases h
  | some c =>
    simp only [advance, hp] at h
    have hi1 : ScanInv { s with current := s.current + 1 } := step_inv hi hp
    by_cases h1 : c = '('
    · rw [if_pos h1] at h
      exact add_token_inv _ _ _ h hi1
    rw [if_neg h1] at h
    by_cases h2 : c = ')'
    · rw [if_pos h2] at h
      exact add_token_inv _ _ _ h hi1
    rw [if_neg h2] at h
    by_cases h3 : c = '{'
    · rw [if_pos h3] at h
      exact add_token_inv _ _ _ h hi1
    rw [if_neg h3] at h
    by_cases h4 : c = '}'
    · rw [if_pos h4] at h
      exact add_token_inv _ _ _ h hi1
    rw [if_neg h4] at h
    by_cases h5 : c = ','
    · rw [if_pos h5] at h
      exact add_token_inv _ _ _ h hi1
    rw [if_neg h5] at h
    by_cases h6 : c = '.'
    · rw [if_pos h6] at h
      exact add_token_inv _ _ _ h hi1
    rw [if_neg h6] at h
    by_cases h7 : c = '-'
    · rw [if_pos h7] at h
      exact add_token_inv _ _ _ h hi1
    rw [if_neg h7] at h
    by_cases h8 : c = '+'
    · rw [if_pos h8] at h
      exact add_token_inv _ _ _ h hi1
    rw [if_neg h8] at h
    by_cases h9 : c = ';'
    · rw [if_pos h9] at h
      exact add_token_inv _ _ _ h hi1
    rw [if_neg h9] at h
    by_cases h10 : c = '*'
    · rw [if_pos h10] at h
      exact add_token_inv _ _ _ h hi1
    rw [if_neg h10] at h
    by_cases h11 : c = '"'
    · rw [if_pos h11] at h
      exact stringScan_inv _ _ _ h hi1
    rw [if_neg h11] at h
    by_cases h12 : c = '!'
    · rw [if_pos h12] at h
      exact add_token_inv _ _ _ h (next_match_inv _ '=' hi1)
    rw [if_neg h12] at h
    by_cases h13 : c = '='
    · rw [if_pos h13] at h
      exact add_token_inv _ _ _ h (next_match_inv _ '=' hi1)
    rw [if_neg h13] at h
    by_cases h14 : c = '<'
    · rw [if_pos h14] at h
      exact add_token_inv _ _ _ h (next_match_inv _ '=' hi1)
    rw [if_neg h14] at h
    by_cases h15 : c = '>'
    · rw [if_pos h15] at h
      exact add_token_inv _ _ _ h (next_match_inv _ '=' hi1)
    rw [if_neg h15] at h
    by_cases h16 : c = '/'
    · rw [if_pos h16] at h
      have hi2 := next_match_inv { s with current := s.current + 1 } '/' hi1
      cases hm : (next_match { s with current := s.current + 1 } '/').1 with
      | true =>
        simp only [hm, if_true] at h
        exact commentLoop_inv _ _ _ h hi2
      | false =>
        simp only [hm, Bool.false_eq_true, if_false] at h
        exact add_token_inv _ _ _ h hi2
    rw [if_neg h16] at h
    by_cases h17 : c = ' ' ∨ c = '\r' ∨ c = '\t'
    · rw [if_pos h17] at h
      cases h
      exact hi1
    rw [if_neg h17] at h
    by_cases h18 : c = '\n'
    · rw [if_pos h18] at h
      cases h
      exact line_inv hi1
    rw [if_neg h18] at h
    by_cases h19 : is_digit c = true
    · rw [if_pos h19] at h
      exact numberScan_inv _ _ _ h hi1
    rw [if_neg h19] at h
    by_cases h20 : is_alpha c = true
    · rw [if_pos h20] at h
      exact identifierScan_inv _ _ _ h hi1
    rw [if_neg h20] at h
    cases h
    exact hi1

/-- The main scan loop preserves the invariant. -/
theorem scanLoop_inv : ∀ (fuel : Nat) (s s' : Scanner),
    scanLoop fuel s = Out.ok s' → ScanInv s → ScanInv s' := by
  intro fuel
  induction fuel with
  | zero => intro s s' h _; cases h
  | succ g ih =>
    intro s s' h hi
    cases he : is_at_end s with
    | true =>
      simp [scanLoop, he] at h
      subst h
      exact hi
    | false =>
      simp only [scanLoop, he, Bool.false_eq_true, if_false] at h
      cases hst : scanToken g { s with start := s.current } with
      | crash => simp only [hst] at h; cases h
      | spin => simp only [hst] at h; cases h
      | ok s1 =>
        simp only [hst] at h
        have hi1 : ScanInv { s with start := s.current } :=
          ⟨Nat.le_refl _, hi.2.1, hi.2.2⟩
        have h2 := ih _ _ h (scanToken_inv _ _ _ hst hi1)
        exact h2

/-- C5: the cursor-state invariant `start <= current <= length(source)`,
`line >= 1` holds throughout a scan: granted the invariant before a step,
`advance`, `next_match`, `scan_token`, the literal helpers, the scan loop
and a whole `scan_tokens` run all deliver states satisfying it again, and
the byte-length bound `current <= source.len()` follows. -/
theorem C5_cursor_invariant (fuel : Nat) (s : Scanner) (hi : ScanInv s) :
    s.current ≤ utf8Len s.source
    ∧ (∀ c s', advance s = Out.ok (c, s') → ScanInv s')
    ∧ (∀ e, ScanInv (next_match s e).2)
    ∧ (∀ s', scanToken fuel s = Out.ok s' → ScanInv s')
    ∧ (∀ s', stringScan fuel s = Out.ok s' → ScanInv s')
    ∧ (∀ s', numberScan fuel s = Out.ok s' → ScanInv s')
    ∧ (∀ s', identifierScan fuel s = Out.ok s' → ScanInv s')
    ∧ (∀ s', commentLoop fuel s = Out.ok s' → ScanInv s')
    ∧ (∀ s', scanLoop fuel s = Out.ok s' → ScanInv s')
    ∧ (∀ src s', scan_tokens fuel src = Out.ok s' → ScanInv s') := by
  refine ⟨Nat.le_trans hi.2.1 (charLen_le_utf8Len _), ?_, ?_, ?_, ?_, ?_, ?_,
    ?_, ?_, ?_⟩
  · intro c s' h
    unfold advance at h
    cases hp : peek s with
    | none => rw [hp] at h; cases h
    | some c2 => rw [hp] at h; cases h; exact step_inv hi hp
  · intro e
    exact next_match_inv s e hi
  · intro s' h
    exact scanToken_inv _ _ _ h hi
  · intro s' h
    exact stringScan_inv _ _ _ h hi
  · intro s' h
    exact numberScan_inv _ _ _ h hi
  · intro s' h
    exact identifierScan_inv _ _ _ h hi
  · intro s' h
    exact commentLoop_inv _ _ _ h hi
  · intro s' h
    exact scanLoop_inv _ _ _ h hi
  · intro src s' h
    unfold scan_tokens at h
    cases hl : scanLoop fuel (mkScanner src) with
    | crash => rw [hl] at h; cases h
    | spin => rw [hl] at h; cases h
    | ok s0 =>
      simp only [hl] at h
      cases h
      have hi0 : ScanInv (mkScanner src) :=
        ⟨Nat.le_refl 0, Nat.zero_le _, Nat.le_refl 1⟩
      have h2 := scanLoop_inv _ _ _ hl hi0
      exact h2

/-- Witness for C5: the fresh scanner state for `"a"` satisfies the
invariant, and so does the state after one `scan_token` step on it. -/
theorem C5_cursor_invariant_witness :
    ScanInv (mkScanner "a")
    ∧ ScanInv ⟨['a'], [⟨TokenType.Identifier, "a", 1⟩], 0, 1, 1, []⟩ :=
  ⟨⟨Nat.le_refl 0, Nat.zero_le _, Nat.le_refl 1⟩,
    (C5_cursor_invariant 3 (mkScanner "a")
        ⟨Nat.le_refl 0, Nat.zero_le _, Nat.le_refl 1⟩).2.2.2.1
      ⟨['a'], [⟨TokenType.Identifier, "a", 1⟩], 0, 1, 1, []⟩ rfl⟩


/-- A cons-shaped tail of `drop` pins down the element under the index. -/
theorem getElem?_of_drop_cons {l t : List Char} {c : Char} {n : Nat}
    (h : l.drop n = c :: t) : l[n]? = some c := by
  have h0 := List.getElem?_drop l n 0
  rw [h] at h0
  simpa using h0.symm

/-- On ASCII text the byte length equals the character count. -/
theorem utf8Len_ascii : ∀ (l : List Char), asciiOnly l → utf8Len l = l.length := by
  intro l
  induction l with
  | nil => intro _; rfl
  | cons c cs ih =>
    intro h
    have hc : c.utf8Size = 1 := h c (List.mem_cons_self c cs)
    have hcs : asciiOnly cs := fun x hx => h x (List.mem_cons_of_mem c hx)
    simp only [utf8Len, List.map_cons, List.sum_cons, List.length_cons, hc]
    simp only [utf8Len] at ih
    rw [ih hcs]
    omega

/-- On ASCII text, dropping `n` bytes is dropping `n` characters. -/
theorem byteDrop_ascii : ∀ (l : List Char) (n : Nat), asciiOnly l →
    n ≤ l.length → byteDrop l n = some (l.drop n) := by
  intro l
  induction l with
  | nil =>
    intro n _ hn
    have h0 : n = 0 := Nat.le_zero.mp hn
    subst h0
    rfl
  | cons c cs ih =>
    intro n h hn
    cases n with
    | zero => rfl
    | succ m =>
      have hc : c.utf8Size = 1 := h c (List.mem_cons_self c cs)
      have hcs : asciiOnly cs := fun x hx => h x (List.mem_cons_of_mem c hx)
      simp only [byteDrop, hc]
      rw [if_pos (by omega)]
      have hm : m + 1 - 1 = m := by omega
      rw [hm, ih m hcs (by simpa using hn), List.drop_succ_cons]

/-- On ASCII text, taking `n` bytes is taking `n` characters. -/
theorem byteTake_ascii : ∀ (l : List Char) (n : Nat), asciiOnly l →
    n ≤ l.length → byteTake l n = some (l.take n) := by
  intro l
  induction l with
  | nil =>
    intro n _ hn
    have h0 : n = 0 := Nat.le_zero.mp hn
    subst h0
    rfl
  | cons c cs ih =>
    intro n h hn
    cases n with
    | zero => rfl
    | succ m =>
      have hc : c.utf8Size = 1 := h c (List.mem_cons_self c cs)
      have hcs : asciiOnly cs := fun x hx => h x (List.mem_cons_of_mem c hx)
      simp only [byteTake, hc]
      rw [if_pos (by omega)]
      have hm : m + 1 - 1 = m := by omega
      rw [hm, ih m hcs (by simpa using hn)]
      simp [List.take_succ_cons]

/-- On ASCII text the byte slice `[a, b)` is the character slice. -/
theorem sliceBytes_ascii (l : List Char) (a b : Nat) (h : asciiOnly l)
    (hab : a ≤ b) (hb : b ≤ l.length) :
    sliceBytes l a b = some ((l.drop a).take (b - a)) := by
  have hdrop : asciiOnly (l.drop a) := fun x hx => h x (List.mem_of_mem_drop hx)
  unfold sliceBytes
  rw [if_pos hab, byteDrop_ascii l a h (Nat.le_trans hab hb)]
  simp only [Option.some_bind]
  rw [byteTake_ascii (l.drop a) (b - a) hdrop (by simp [List.length_drop]; omega)]

/-- Run of the string-body loop over a quote-free body up to the closing
quote: the cursor advances over the body and the line counter gains one per
newline in the body. -/
theorem stringLoop_run : ∀ (body : List Char), '"' ∉ body →
    ∀ (rest : List Char) (s : Scanner) (fuel : Nat),
    s.source.drop s.current = body ++ '"' :: rest →
    body.length + 1 ≤ fuel →
    stringLoop fuel s = Out.ok { s with
      current := s.current + body.length
      line := s.line + body.countP (fun c => decide (c = '\n')) } := by
  intro body
  induction body with
  | nil =>
    intro _ rest s fuel hdrop hfuel
    cases fuel with
    | zero => omega
    | succ g =>
      have hp : peek s = some '"' := getElem?_of_drop_cons hdrop
      simp only [stringLoop, hp, if_pos rfl]
      rfl
  | cons c body ih =>
    intro hq rest s fuel hdrop hfuel
    have hc : c ≠ '"' := by
      intro e
      apply hq
      rw [← e]
      exact List.mem_cons_self c body
    have hqb : '"' ∉ body := fun hb => hq (List.mem_cons_of_mem c hb)
    have hp : peek s = some c := getElem?_of_drop_cons hdrop
    have hp' : s.source[s.current]? = some c := hp
    cases fuel with
    | zero => simp at hfuel
    | succ g =>
      have hdrop2 : s.source.drop (s.current + 1) = body ++ '"' :: rest := by
        have h1 : s.source.drop (s.current + 1)
            = (s.source.drop s.current).drop 1 := by
          rw [List.drop_drop, Nat.add_comm]
        rw [h1, hdrop]
        rfl
      have hfg : body.length + 1 ≤ g := by
        simp only [List.length_cons] at hfuel
        omega
      by_cases hn : c = '\n'
      · subst hn
        have hadv : advance { s with line := s.line + 1 }
            = Out.ok ('\n', { s with line := s.line + 1, current := s.current + 1 }) := by
          simp [advance, peek, hp']
        simp only [stringLoop, hp, if_neg hc, eq_self_iff_true, if_true, hadv]
        rw [ih hqb rest { s with line := s.line + 1, current := s.current + 1 } g
          hdrop2 hfg]
        simp [Scanner.mk.injEq, List.countP_cons]
        omega
      · have hadv : advance s = Out.ok (c, { s with current := s.current + 1 }) := by
          simp [advance, peek, hp']
        simp only [stringLoop, hp, if_neg hc, if_neg hn, hadv]
        rw [ih hqb rest { s with current := s.current + 1 } g hdrop2 hfg]
        simp [Scanner.mk.injEq, List.countP_cons, hn]
        omega


/-- C10 amended: the string body always ends at the first `"` after the
opening quote, with no escape processing — a backslash is an ordinary
character with no escaping power.  On an all-ASCII source the emitted
`StringLiteral` payload is exactly the raw text strictly between the two
quotes (backslashes verbatim), the lexeme is the quoted span, and the token
carries the line counter after the body's newlines.  (With multi-byte
characters earlier in the source the payload byte-slice can differ from the
text between the quotes — see the counterexample.) -/
theorem C10_amended_string_payload (s : Scanner) (body rest : List Char)
    (fuel : Nat)
    (hascii : asciiOnly s.source)
    (hq : s.source.drop s.start = '"' :: (body ++ '"' :: rest))
    (hcur : s.current = s.start + 1)
    (hbody : '"' ∉ body)
    (hfuel : body.length + 1 ≤ fuel) :
    stringScan fuel s = Out.ok { s with
      current := s.start + body.length + 2
      line := s.line + body.countP (fun c => decide (c = '\n'))
      tokens := s.tokens ++ [⟨TokenType.StringLit (String.mk body),
        String.mk ('"' :: (body ++ ['"'])),
        s.line + body.countP (fun c => decide (c = '\n'))⟩] } := by
  have hdrop : s.source.drop s.current = body ++ '"' :: rest := by
    rw [hcur]
    have h1 : s.source.drop (s.start + 1) = (s.source.drop s.start).drop 1 := by
      rw [List.drop_drop, Nat.add_comm]
    rw [h1, hq]
    rfl
  have hlen1 : s.start < s.source.length := by
    by_contra hx
    rw [List.drop_eq_nil_of_le (by omega)] at hq
    cases hq
  have hlen : s.source.length = s.start + body.length + rest.length + 2 := by
    have h2 := congrArg List.length hq
    simp [List.length_drop] at h2
    omega
  have hrun := stringLoop_run body hbody rest s fuel hdrop hfuel
  have hend : is_at_end { s with
      current := s.current + body.length
      line := s.line + body.countP (fun c => decide (c = '\n')) } = false := by
    simp only [is_at_end, utf8Len_ascii s.source hascii, decide_eq_false_iff_not]
    simp only [Nat.not_le]
    omega
  have hdrop3 : s.source.drop (s.current + body.length) = '"' :: rest := by
    have h3 : s.source.drop (s.current + body.length)
        = (s.source.drop s.current).drop body.length := by
      rw [List.drop_drop, Nat.add_comm]
    rw [h3, hdrop, List.drop_left]
  have hpk : peek { s with
      current := s.current + body.length
      line := s.line + body.countP (fun c => decide (c = '\n')) }
      = some '"' := getElem?_of_drop_cons hdrop3
  have hsl1 : sliceBytes s.source (s.start + 1) (s.current + body.length + 1 - 1)
      = some body := by
    rw [sliceBytes_ascii s.source (s.start + 1) (s.current + body.length + 1 - 1)
      hascii (by omega) (by omega)]
    have h4 : s.current + body.length + 1 - 1 - (s.start + 1) = body.length := by
      omega
    have h5 : s.source.drop (s.start + 1) = body ++ '"' :: rest := by
      rw [← hcur]
      exact hdrop
    rw [h4, h5, List.take_left]
  have hsl2 : sliceBytes s.source s.start (s.current + body.length + 1)
      = some ('"' :: (body ++ ['"'])) := by
    rw [sliceBytes_ascii s.source s.start (s.current + body.length + 1)
      hascii (by omega) (by omega)]
    have h6 : s.current + body.length + 1 - s.start = body.length + 2 := by
      omega
    rw [h6, hq]
    simp only [List.take_succ_cons, Option.some.injEq, List.cons.injEq, true_and]
    have h7 : (body ++ '"' :: rest).take (body.length + 1)
        = body ++ ('"' :: rest).take 1 := List.take_append 1
    rw [h7]
    rfl
  unfold stringScan
  rw [hrun]
  simp only [hend, Bool.false_eq_true, if_false, advance, hpk, hsl1]
  unfold add_token
  rw [hsl2]
  have hcc : s.current + body.length + 1 = s.start + body.length + 2 := by omega
  rw [hcc]

/-- Witness for the amended C10: scanning the string `"a\"` (a body whose
last character is a backslash) emits the payload `a\` verbatim — the
backslash does not escape the closing quote. -/
theorem C10_amended_string_payload_witness :
    asciiOnly ['"', 'a', '\\', '"']
    ∧ stringScan 5 ⟨['"', 'a', '\\', '"'], [], 0, 1, 1, []⟩
      = Out.ok ⟨['"', 'a', '\\', '"'],
          [⟨TokenType.StringLit (String.mk ['a', '\\']),
            String.mk ['"', 'a', '\\', '"'], 1⟩], 0, 4, 1, []⟩ := by
  refine ⟨by unfold asciiOnly; decide, ?_⟩
  have h := C10_amended_string_payload ⟨['"', 'a', '\\', '"'], [], 0, 1, 1, []⟩
    ['a', '\\'] [] 5 (by unfold asciiOnly; decide) rfl rfl (by decide) (by decide)
  exact h

end Rinlox
